import Mathlib

/-!
Verification of the book-summarizer pipeline's two core components against
their natural-language specification: the segmentation engine (structural
"chapter" chunker with a sentence-grouping fallback, plus the flat
sentence-grouping variant) and the rate-limited summarization controller
(token estimation, rolling-window budget, robust JSON-response parsing).

Texts are modelled as `List Char` (the JS string is a sequence of code
units; all inputs considered here are plain characters).  Every definition
below is a direct translation of the corresponding TypeScript function.
-/

set_option maxRecDepth 16000

/-- Conversion from Lean string literals to the `List Char` text model. -/
def strOf (s : String) : List Char := s.data

/-- The space character, written via its code point. -/
def spc : Char := Char.ofNat 32

/-- Whitespace test matching the JS regular-expression class `\s`
(space, tab, LF, VT, FF, CR, NBSP, and the Unicode space code points). -/
def isWS (c : Char) : Bool :=
  decide (c.toNat = 32 ∨ c.toNat = 9 ∨ c.toNat = 10 ∨ c.toNat = 11 ∨
    c.toNat = 12 ∨ c.toNat = 13 ∨ c.toNat = 160 ∨ c.toNat = 0x1680 ∨
    (0x2000 ≤ c.toNat ∧ c.toNat ≤ 0x200a) ∨ c.toNat = 0x2028 ∨
    c.toNat = 0x2029 ∨ c.toNat = 0x202f ∨ c.toNat = 0x205f ∨
    c.toNat = 0x3000 ∨ c.toNat = 0xfeff)

/-- Sentence-terminator test: the character class `[.!?]`. -/
def isTerm (c : Char) : Bool :=
  decide (c.toNat = 46 ∨ c.toNat = 33 ∨ c.toNat = 63)

/-- Word-character test matching the JS regular-expression class `\w`. -/
def isWordChar (c : Char) : Bool :=
  decide ((65 ≤ c.toNat ∧ c.toNat ≤ 90) ∨ (97 ≤ c.toNat ∧ c.toNat ≤ 122) ∨
    (48 ≤ c.toNat ∧ c.toNat ≤ 57) ∨ c.toNat = 95)

/-- ASCII lower-casing, as performed by a case-insensitive regex match on
the ASCII pattern word. -/
def toLowerA (c : Char) : Char :=
  if 65 ≤ c.toNat ∧ c.toNat ≤ 90 then Char.ofNat (c.toNat + 32) else c

/-- Left trim: drop leading whitespace. -/
def trimL (t : List Char) : List Char := t.dropWhile isWS

/-- Right trim: drop trailing whitespace. -/
def trimR (t : List Char) : List Char := (t.reverse.dropWhile isWS).reverse

/-- Model of the JS `String.prototype.trim`. -/
def trimStr (t : List Char) : List Char := trimR (trimL t)

/-- Model of `text.slice(a, b)` for the in-range indices used by the code. -/
def sliceTx (t : List Char) (a b : Nat) : List Char := (t.drop a).take (b - a)

/-- Model of `Array.prototype.join(' ')`. -/
def joinSp : List (List Char) → List Char
  | [] => []
  | [x] => x
  | x :: xs => x ++ spc :: joinSp xs

/-- Decimal-digit worker, structurally recursive on a fuel argument so
that it reduces inside the kernel; `fuel ≥ n` always suffices because the
argument at least halves at every step. -/
def natCharsAux : Nat → Nat → List Char
  | 0, n => [Char.ofNat (48 + n % 10)]
  | fuel + 1, n =>
    if n < 10 then [Char.ofNat (48 + n)]
    else natCharsAux fuel (n / 10) ++ [Char.ofNat (48 + n % 10)]

/-- Decimal digits of a natural number, for rendering chunk names. -/
def natChars (n : Nat) : List Char := natCharsAux n n

/-- Scanner for `text.split(/\s+/)`: `inRun` records whether the scanner is
inside a whitespace run (whose piece has already been emitted), `acc` holds
the piece currently being accumulated. -/
def jsSplitAux : List Char → Bool → List Char → List (List Char)
  | [], _, acc => [acc]
  | c :: rest, inRun, acc =>
    if isWS c then
      if inRun then jsSplitAux rest true acc
      else acc :: jsSplitAux rest true []
    else jsSplitAux rest false (acc ++ [c])

/-- Model of the JS `text.split(/\s+/)`: pieces between maximal whitespace
runs, including an empty leading (resp. trailing) piece when the text
starts (resp. ends) with whitespace, and `[""]` on the empty text. -/
def jsSplitWS (t : List Char) : List (List Char) := jsSplitAux t false []

/-- Count of maximal whitespace runs in a text. -/
def wsRunsAux : List Char → Bool → Nat
  | [], _ => 0
  | c :: rest, inRun =>
    if isWS c then (if inRun then 0 else 1) + wsRunsAux rest true
    else wsRunsAux rest false

/-- Count of maximal whitespace runs in a text, starting outside a run. -/
def wsRunCount (t : List Char) : Nat := wsRunsAux t false

/-- Actual words of a text: the nonempty pieces of the whitespace split. -/
def wordsOf (t : List Char) : List (List Char) :=
  (jsSplitWS t).filter (fun w => w ≠ [])

/-- Model of `estimateTokens` from the summarization lambda:
`Math.ceil(text.split(/\s+/).length * 1.33)`.  The number 1.33 and the
product are rational here; for every piece count representable as a JS
string length the double-precision product rounds to the same ceiling, so
the exact rational ceiling `(133 * n + 99) / 100` is faithful. -/
def estimateTokens (t : List Char) : Nat :=
  (133 * (jsSplitWS t).length + 99) / 100

/-- Splitter for `text.match(/[^.!?]*[.!?]/g)`: cut after each terminator,
discarding a trailing terminator-free remainder (`acc` is discarded at the
end of the text). -/
def splitSentAux : List Char → List Char → List (List Char)
  | [], _ => []
  | c :: rest, acc =>
    if isTerm c then (acc ++ [c]) :: splitSentAux rest []
    else splitSentAux rest (acc ++ [c])

/-- Model of `text.match(/[^.!?]*[.!?]/g) || [text]`: the sentence list of
a text, the whole text when it contains no terminator. -/
def sentencesOf (t : List Char) : List (List Char) :=
  match splitSentAux t [] with
  | [] => [t]
  | ss => ss

/-- Chunk record of the pipeline: a name and its text content. -/
structure Chunk where
  chunkName : List Char
  chunkContent : List Char
deriving DecidableEq

/-- Loop state of the sentence-grouping chunkers (`fallbackChunking` and
the flat `smartChunkText`): emitted chunks, the running chunk text, the
next section number, and the pending sentence group. -/
structure FBState where
  chunks : List Chunk
  currentChunk : List Char
  sectionNumber : Nat
  sentenceGroup : List (List Char)
deriving DecidableEq

/-- One iteration of the sentence-grouping loop shared verbatim by
`fallbackChunking` and the flat `smartChunkText` (they differ only in the
size cap and the chunk-name scheme, abstracted as `cap` and `mkName`). -/
def fbStepG (cap : Nat) (mkName : Nat → List Char) (st : FBState)
    (sent : List Char) : FBState :=
  let g := st.sentenceGroup ++ [sent]
  if 4 ≤ g.length ∨ cap < st.currentChunk.length + sent.length then
    let gc := joinSp g
    if cap < st.currentChunk.length + gc.length then
      ⟨st.chunks ++ [⟨mkName st.sectionNumber, trimStr st.currentChunk⟩],
        gc ++ [spc], st.sectionNumber + 1, []⟩
    else
      ⟨st.chunks, st.currentChunk ++ (gc ++ [spc]), st.sectionNumber, []⟩
  else
    ⟨st.chunks, st.currentChunk, st.sectionNumber, g⟩

/-- Final flush of the sentence-grouping loop: append the running chunk
when it is nonempty (the trailing `sentenceGroup` is NOT flushed, as in
the source). -/
def sentenceLoopFinish (mkName : Nat → List Char) (st : FBState) :
    List Chunk :=
  st.chunks ++
    (if 0 < st.currentChunk.length then
      [⟨mkName st.sectionNumber, trimStr st.currentChunk⟩] else [])

/-- The sentence-grouping loop over a text, including the final flush. -/
def sentenceLoop (cap : Nat) (mkName : Nat → List Char)
    (t : List Char) : List Chunk :=
  sentenceLoopFinish mkName
    ((sentencesOf t).foldl (fbStepG cap mkName) ⟨[], [], 1, []⟩)

/-- Model of `fallbackChunking(text, baseName, maxChunkSize)` from the
structural smart-chunk lambda. -/
def fallbackChunking (text base : List Char) (cap : Nat) : List Chunk :=
  sentenceLoop cap (fun k => base ++ Char.ofNat 46 :: natChars k) text

/-- Model of the flat-variant `smartChunkText` (`src/lambda/smart-chunk`):
the same sentence-grouping loop with cap 40000 and names `Section n`. -/
def smartChunkTextFlat (t : List Char) : List Chunk :=
  sentenceLoop 40000 (fun k => strOf "Section " ++ natChars k) t

/-- Character of `t` at index `j`, NUL out of range (only used after the
explicit range guards of `chapterAt`). -/
def charAt (t : List Char) (j : Nat) : Char := t.getD j (Char.ofNat 0)

/-- Whole-word case-insensitive match of `chapter` at index `i`, the
per-position semantics of `/\bchapter\b/gi`: the seven characters starting
at `i` spell the marker (case-insensitively) and both ends sit on a word
boundary. -/
def chapterAt (t : List Char) (i : Nat) : Bool :=
  decide ((sliceTx t i (i + 7)).map toLowerA = strOf "chapter") &&
  (decide (i = 0) || !isWordChar (charAt t (i - 1))) &&
  (decide (i + 7 = t.length) || !isWordChar (charAt t (i + 7)))

/-- Model of `Array.from(text.matchAll(/\bchapter\b/gi))` indices.  Two
whole-word occurrences of the marker can never overlap (the marker has no
nontrivial border and is flanked by word boundaries), so the global scan
finds exactly the positions satisfying `chapterAt`, in increasing order. -/
def chapterMatches (t : List Char) : List Nat :=
  (List.range t.length).filter (fun i => chapterAt t i)

/-- Chapter-chunk name `Chapter k.1`. -/
def chapterName (k : Nat) : List Char :=
  strOf "Chapter " ++ natChars k ++ strOf ".1"

/-- The match loop of the structural `smartChunkText`, folded over the
match indices.  Arguments after the match list: `lastIndex`,
`chapterNumber`, accumulated chunks; the result also returns the final
`lastIndex` and `chapterNumber` for the suffix handling. -/
def chapLoop (t : List Char) :
    List Nat → Nat → Nat → List Chunk → List Chunk × Nat × Nat
  | [], li, cn, acc => (acc, li, cn)
  | m :: rest, li, cn, acc =>
    let cn' := cn + 1
    if li < m then
      let acc1 :=
        if 0 < li then
          let pre := trimStr (sliceTx t li m)
          if pre = [] then acc
          else acc ++ [⟨chapterName (cn' - 1), pre⟩]
        else acc
      let nxt := match rest with | [] => t.length | m2 :: _ => m2
      let cont := trimStr (sliceTx t m nxt)
      chapLoop t rest nxt cn' (acc1 ++ [⟨chapterName cn', cont⟩])
    else chapLoop t rest li cn' acc

/-- The structural `smartChunkText` before its size-bounding pass: prefix
chunk, chapter loop and suffix chunk when the marker occurs, otherwise a
single untrimmed `Section 1.1` chunk holding the whole text. -/
def structuralBase (t : List Char) : List Chunk :=
  match chapterMatches t with
  | [] => [⟨strOf "Section 1.1", t⟩]
  | m0 :: ms =>
    let pres :=
      if 0 < m0 then
        let pc := trimStr (sliceTx t 0 m0)
        if pc = [] then [] else [⟨strOf "Prefix 1.1", pc⟩]
      else []
    let r := chapLoop t (m0 :: ms) 0 0 pres
    if r.2.1 < t.length then
      let sc := trimStr (sliceTx t r.2.1 t.length)
      if sc = [] then r.1
      else r.1 ++ [⟨strOf "Suffix " ++ natChars (r.2.2 + 1) ++ strOf ".1", sc⟩]
    else r.1

/-- Model of the structural `smartChunkText`: the structural pass followed
by the fallback split of every chunk longer than 100000 characters. -/
def smartChunkTextStruct (t : List Char) : List Chunk :=
  ((structuralBase t).map (fun c =>
    if 100000 < c.chunkContent.length then
      fallbackChunking c.chunkContent c.chunkName 100000
    else [c])).flatten

/-- Error raised by the controller when a generation response cannot be
parsed (`AI response was not valid JSON` in the source). -/
inductive GenError where
  | malformedGenerationResponse
deriving DecidableEq

/-- Global fence-marker removal, the model of
`responseText.replace(/```json|```/g, '')`: at each position the scanner
removes a leading occurrence of the json fence, else of the bare fence,
else keeps the character — exactly the leftmost-first alternation of the
regex, applied globally (inside string values as well). -/
def stripFencesAux : Nat → List Char → List Char
  | 0, _ => []
  | _, [] => []
  | fuel + 1, c :: rest =>
    if (strOf "```json").isPrefixOf (c :: rest) then
      stripFencesAux fuel (rest.drop 6)
    else if (strOf "```").isPrefixOf (c :: rest) then
      stripFencesAux fuel (rest.drop 2)
    else c :: stripFencesAux fuel rest

/-- Fence removal of a whole text: the fuel `t.length` always suffices
because every step consumes at least one character. -/
def stripFences (t : List Char) : List Char := stripFencesAux t.length t

/-- Model of `robustJsonParse`: strip the fence markers, trim, hand the
result to `JSON.parse` (the external platform parser, abstracted as the
`parser` argument), and turn a parse failure into the
`malformedGenerationResponse` error instead of any default value. -/
def robustJsonParse {α : Type} (parser : List Char → Option α)
    (responseText : List Char) : Except GenError α :=
  match parser (trimStr (stripFences responseText)) with
  | some v => Except.ok v
  | none => Except.error GenError.malformedGenerationResponse

/-- Rate-limiter state of `summarizeChunksWithRateLimit`: `tokensUsed` and
`startTime` as in the source, `now` the model clock (milliseconds), and
`issued` the log of issued requests as (issue time, estimated tokens). -/
structure RLState where
  tokensUsed : Nat
  startTime : Nat
  now : Nat
  issued : List (Nat × Nat)
deriving DecidableEq

/-- One iteration of `summarizeChunksWithRateLimit` on chunk content
`chunk`: wait-and-reset when the budget would be exceeded, then issue the
request (the generation call itself takes `dur` milliseconds). -/
def rlStep (chunk : List Char) (dur : Nat) (s : RLState) : RLState :=
  let est := estimateTokens chunk
  let s1 :=
    if 30000 < s.tokensUsed + est then
      let elapsed := s.now - s.startTime
      let n2 := if elapsed < 65000 then s.now + (65000 - elapsed) else s.now
      RLState.mk 0 n2 n2 s.issued
    else s
  RLState.mk (s1.tokensUsed + est) s1.startTime (s1.now + dur)
    (s1.issued ++ [(s1.now, est)])

/-- Runner for `summarizeChunksWithRateLimit` over a list of chunk
contents; `durs` gives the duration of each generation call (0 when the
list is exhausted), starting at time 0. -/
def rlRunAux : List (List Char) → List Nat → RLState → RLState
  | [], _, s => s
  | c :: cs, durs, s =>
    rlRunAux cs durs.tail (rlStep c (durs.headD 0) s)

/-- Model of `summarizeChunksWithRateLimit` restricted to its rate-limiter
effect: the log of issued requests. -/
def runRL (chunks : List (List Char)) (durs : List Nat) : RLState :=
  rlRunAux chunks durs (RLState.mk 0 0 0 [])

/-- Total estimated tokens of the requests issued in the rolling window
`[T, T + 65000)`. -/
def winSum (issued : List (Nat × Nat)) (T : Nat) : Nat :=
  ((issued.filter (fun p => decide (T ≤ p.1) && decide (p.1 < T + 65000))).map
    Prod.snd).sum

/-- Total estimated tokens of the requests issued exactly at time `t`. -/
def groupSum (issued : List (Nat × Nat)) (t : Nat) : Nat :=
  ((issued.filter (fun p => decide (p.1 = t))).map Prod.snd).sum

/-- Over-cap exception actually produced by the sentence-grouping loop: the
chunk content is a single sentence group — the trimmed space-join of at
most four consecutive sentences of the split source `S`. -/
def GroupOk (S : List (List Char)) (content : List Char) : Prop :=
  ∃ gs, gs ≠ [] ∧ gs.length ≤ 4 ∧ gs.Sublist S ∧ content = trimStr (joinSp gs)

/-- Shape invariant of the running chunk in the sentence-grouping loop:
either empty, or some text followed by the trailing space the loop always
appends, where that text either fits the cap or is the space-join of a
single sentence group of at most four consecutive sentences of `S`. -/
def CurOk (cap : Nat) (S : List (List Char)) (cur : List Char) : Prop :=
  cur = [] ∨ ∃ y, cur = y ++ [spc] ∧
    (y.length ≤ cap ∨
      ∃ gs, gs ≠ [] ∧ gs.length ≤ 4 ∧ gs.Sublist S ∧ y = joinSp gs)

/-- A chunk content of 22557 whitespace-separated words (45112 characters),
well under both chunk-size caps, whose token estimate is 30001. -/
def c1BigChunk : List Char := (List.replicate 22556 [Char.ofNat 97, spc]).flatten

/-- A 10001-character sentence: 10000 letters and a final period. -/
def bigSentence : List Char := List.replicate 10000 (Char.ofNat 97) ++ [Char.ofNat 46]

/-- Four consecutive copies of `bigSentence`: 40004 characters, four
sentences of 10001 characters each. -/
def bigText4 : List Char := bigSentence ++ bigSentence ++ bigSentence ++ bigSentence

/-- Claim C1 as stated: over every chunk sequence (and generation-call
timing) the requests issued by the controller inside any rolling 65-second
window estimate to at most 30000 tokens. -/
def claimC1Stated : Prop :=
  ∀ (chunks : List (List Char)) (durs : List Nat) (T : Nat),
    winSum (runRL chunks durs).issued T ≤ 30000

/-- Claim C4 as stated: every chunk of either segmentation variant fits the
variant's cap, except that a single over-cap sentence forms its own chunk. -/
def claimC4Stated : Prop :=
  (∀ t nm ct : List Char, (⟨nm, ct⟩ : Chunk) ∈ smartChunkTextFlat t →
    ct.length ≤ 40000 ∨
      ∃ s ∈ sentencesOf t, 40000 < s.length ∧ ct = trimStr s) ∧
  (∀ t nm ct : List Char, (⟨nm, ct⟩ : Chunk) ∈ smartChunkTextStruct t →
    ct.length ≤ 100000 ∨
      ∃ pc ∈ structuralBase t, ∃ s ∈ sentencesOf pc.chunkContent,
        100000 < s.length ∧ ct = trimStr s)

/-- Claim C7 as stated: re-running the fallback on any sub-chunk of its own
output, with the same cap, returns that sub-chunk's content unchanged as
the single chunk `base.1`. -/
def claimC7Stated : Prop :=
  ∀ (t base base2 : List Char) (cap : Nat), ∀ c ∈ fallbackChunking t base cap,
    fallbackChunking c.chunkContent base2 cap =
      [⟨base2 ++ Char.ofNat 46 :: natChars 1, c.chunkContent⟩]

/-- Claim C8 as stated: the token estimate is the ceiling of 1.33 times the
number of words (nonempty whitespace-separated pieces) of the text. -/
def claimC8Stated : Prop :=
  ∀ t : List Char, estimateTokens t = (133 * (wordsOf t).length + 99) / 100

/-- Invariant of the rate-limiter loop under instantaneous generation
calls: the clock sits at the window start, which every issued request's
time divides into 65-second multiples and does not exceed, and the
estimated tokens issued at any single time — in particular at the current
window start, where they equal `tokensUsed` — never exceed the budget. -/
def RLInv (s : RLState) : Prop :=
  s.startTime = s.now ∧ 65000 ∣ s.now ∧ s.tokensUsed ≤ 30000 ∧
  (∀ p ∈ s.issued, 65000 ∣ p.1 ∧ p.1 ≤ s.now) ∧
  (∀ t, t ≠ s.now → groupSum s.issued t ≤ 30000) ∧
  groupSum s.issued s.now = s.tokensUsed

/-- C2: evaluation of the structural strategy at a text in which the
marker occurs k = 2 times, the first occurrence at index 0.  The claim
predicts two chunks whose concatenation reproduces the text; the code
skips the first match (its guard `match.index > lastIndex` fails at 0),
never emits the span before the second match, and returns a single chunk —
the text `Chapter one. ` is lost. -/
theorem c2_first_chapter_dropped :
    smartChunkTextStruct (strOf "Chapter one. Chapter two.") =
      [⟨strOf "Chapter 2.1", strOf "Chapter two."⟩] := by decide

/-- C3: evaluation of the structural strategy at the spec's end-to-end
scenario text.  The claim predicts the two chunks `Chapter 1.1` and
`Chapter 2.1`; the code returns only `Chapter 2.1`, dropping
`Chapter 1. Hello world. ` entirely. -/
theorem c3_scenario_single_chunk :
    smartChunkTextStruct
        (strOf "Chapter 1. Hello world. Chapter 2. Goodbye world.") =
      [⟨strOf "Chapter 2.1", strOf "Chapter 2. Goodbye world."⟩] := by decide

/-- C5: evaluation of the flat sentence-grouping chunker at a one-sentence
text.  The claim says trailing partial content is flushed so no words are
lost; the code only flushes `currentChunk`, never the pending
`sentenceGroup`, so a trailing group of fewer than four sentences is
dropped — here the whole text — and the result is empty. -/
theorem c5_trailing_group_dropped :
    smartChunkTextFlat (strOf "Hello world.") = [] := by decide

/-- C6: evaluation of the structural strategy at the empty text.  The
claim says empty-content chunks are never emitted and empty input yields
an empty sequence; the no-marker branch pushes the whole untrimmed text
without an emptiness check, producing one chunk with empty content. -/
theorem c6_empty_input_empty_chunk :
    smartChunkTextStruct (strOf "") = [⟨strOf "Section 1.1", strOf ""⟩] := by
  decide

/-- C7 counterexample: the fallback run on `aaaa. bb.` with cap 3 emits
the sub-chunk `("N.3", "bb.")`; re-running the fallback on `bb.` with the
same cap returns `[]` (the single-sentence group is never flushed), not
that sub-chunk unchanged — so the fallback is not idempotent as claimed. -/
theorem c7_counterexample : ¬ claimC7Stated := by
  intro h
  have h2 := h (strOf "aaaa. bb.") (strOf "N") (strOf "M") 3
    ⟨strOf "N.3", strOf "bb."⟩ (by decide)
  exact absurd h2 (by decide)

/-- C8 counterexample: at the text `" a"` there is one word, so the claim
predicts `ceil(1 * 1.33) = 2`; but `split(/\s+/)` yields the two pieces
`["", "a"]` and the code computes `ceil(2 * 1.33) = 3`. -/
theorem c8_counterexample : ¬ claimC8Stated := fun h =>
  absurd (h (strOf " a")) (by decide)

/-- C9: whenever the platform JSON parser (abstracted as `parser`, the
external `JSON.parse` boundary) fails on the fence-stripped trimmed
response, `robustJsonParse` fails with the malformed-response error — it
never substitutes an empty or partial value. -/
theorem c9_malformed_response_error {α : Type} (parser : List Char → Option α)
    (s : List Char) (h : parser (trimStr (stripFences s)) = none) :
    robustJsonParse parser s =
      Except.error GenError.malformedGenerationResponse := by
  unfold robustJsonParse
  rw [h]

/-- C9 witness: a concrete always-failing parse (plain prose, no JSON
object, no code fence) at which the theorem applies. -/
theorem c9_malformed_response_error_witness :
    (fun _ : List Char => (none : Option Nat))
        (trimStr (stripFences (strOf "The chunk tells the story of a whale."))) =
      none ∧
    robustJsonParse (fun _ : List Char => (none : Option Nat))
        (strOf "The chunk tells the story of a whale.") =
      Except.error GenError.malformedGenerationResponse :=
  ⟨rfl, c9_malformed_response_error _ _ rfl⟩

/-- C10: fence markers are removed globally, inside JSON string values
included: a fenced payload whose string content contains a bare fence is
corrupted before parsing (the cleaned text differs from the original
payload), and every parser receives exactly that corrupted text. -/
theorem c10_fences_removed_globally :
    trimStr (stripFences (strOf "```json[\"a``` b\"]```")) = strOf "[\"a b\"]" ∧
    strOf "[\"a b\"]" ≠ strOf "[\"a``` b\"]" ∧
    ∀ (α : Type) (parser : List Char → Option α),
      robustJsonParse parser (strOf "```json[\"a``` b\"]```") =
        match parser (strOf "[\"a b\"]") with
        | some v => Except.ok v
        | none => Except.error GenError.malformedGenerationResponse := by
  refine ⟨by decide, by decide, fun α parser => ?_⟩
  unfold robustJsonParse
  have h : trimStr (stripFences (strOf "```json[\"a``` b\"]```")) =
      strOf "[\"a b\"]" := by decide
  rw [h]

/-! Helper lemmas about trimming and the whitespace split. -/

theorem length_dropWhile_le' (p : Char → Bool) (l : List Char) :
    (l.dropWhile p).length ≤ l.length := by
  induction l with
  | nil => simp [List.dropWhile]
  | cons c rest ih =>
    by_cases h : p c
    · simp [List.dropWhile, h]
      omega
    · simp [List.dropWhile, h]

theorem head_not_ws_of_trimL (t : List Char) (h : trimL t = t) :
    ∀ c, t.head? = some c → isWS c = false := by
  intro c hc
  by_contra hws
  simp only [Bool.not_eq_false] at hws
  obtain ⟨rest, rfl⟩ : ∃ rest, t = c :: rest := by
    cases t with
    | nil => simp at hc
    | cons x xs => simp at hc; exact ⟨xs, by rw [hc]⟩
  have h1 : trimL (c :: rest) = rest.dropWhile isWS := by
    simp [trimL, List.dropWhile, hws]
  have h2 : (rest.dropWhile isWS).length ≤ rest.length :=
    length_dropWhile_le' _ _
  rw [h1] at h
  have := congrArg List.length h
  simp at this
  omega

theorem last_not_ws_of_trimR (t : List Char) (h : trimR t = t) :
    ∀ c, t.getLast? = some c → isWS c = false := by
  intro c hc
  by_contra hws
  simp only [Bool.not_eq_false] at hws
  have hrev : t.reverse.head? = some c := by
    rw [List.head?_reverse]; exact hc
  obtain ⟨r, hr⟩ : ∃ r, t.reverse = c :: r := by
    cases hx : t.reverse with
    | nil => rw [hx] at hrev; simp at hrev
    | cons x xs => rw [hx] at hrev; simp at hrev; exact ⟨xs, by rw [hrev]⟩
  have h1 : trimR t = (r.dropWhile isWS).reverse := by
    simp [trimR, hr, List.dropWhile, hws]
  have h2 : (r.dropWhile isWS).length ≤ r.length := length_dropWhile_le' _ _
  rw [h1] at h
  have h3 := congrArg List.length h
  have h4 : t.length = r.length + 1 := by
    have := congrArg List.length hr
    simp at this
    omega
  simp at h3
  omega

theorem jsSplitAux_length (t : List Char) :
    ∀ (b : Bool) (acc : List Char),
      (jsSplitAux t b acc).length = wsRunsAux t b + 1 := by
  induction t with
  | nil => intro b acc; simp [jsSplitAux, wsRunsAux]
  | cons c rest ih =>
    intro b acc
    by_cases hws : isWS c
    · cases b with
      | true => simp [jsSplitAux, wsRunsAux, hws, ih]
      | false => simp [jsSplitAux, wsRunsAux, hws, ih]; omega
    · simp [jsSplitAux, wsRunsAux, hws, ih]

theorem jsSplitAux_pieces_ne_nil (t : List Char) :
    ∀ (b : Bool) (acc : List Char),
      (∀ c, t.getLast? = some c → isWS c = false) →
      (t = [] → acc ≠ []) →
      (b = false → acc = [] → ∃ c rest, t = c :: rest ∧ isWS c = false) →
      ∀ p ∈ jsSplitAux t b acc, p ≠ [] := by
  induction t with
  | nil =>
    intro b acc _ h2 _ p hp
    simp [jsSplitAux] at hp
    subst hp
    exact h2 rfl
  | cons c rest ih =>
    intro b acc h1 h2 h3 p hp
    have hrest_last : rest ≠ [] → ∀ d, rest.getLast? = some d → isWS d = false := by
      intro hne d hd
      apply h1
      cases rest with
      | nil => exact absurd rfl hne
      | cons y ys => rw [List.getLast?_cons_cons]; exact hd
    by_cases hws : isWS c
    · have hrne : rest ≠ [] := by
        intro h
        subst h
        have := h1 c (by simp)
        rw [this] at hws
        exact Bool.false_ne_true hws
      cases b with
      | true =>
        simp only [jsSplitAux, hws, if_true] at hp
        exact ih true acc (hrest_last hrne) (fun h => absurd h hrne)
          (fun h => by cases h) p hp
      | false =>
        simp only [jsSplitAux, hws, if_true] at hp
        rcases List.mem_cons.mp hp with h | h
        · subst h
          intro hacc
          rcases h3 rfl hacc with ⟨d, r, hd, hdws⟩
          injection hd with hcd hrr
          subst hcd
          rw [hdws] at hws
          exact Bool.false_ne_true hws
        · exact ih true [] (hrest_last hrne) (fun h => absurd h hrne)
            (fun h => by cases h) p h
    · simp only [jsSplitAux, hws, if_false] at hp
      exact ih false (acc ++ [c])
        (fun d hd => by
          cases hx : rest with
          | nil => simp [hx] at hd
          | cons y ys => exact hrest_last (by simp [hx]) d hd)
        (fun _ => by simp)
        (fun _ h => absurd h (by simp)) p hp

/-- C8 amended: `estimateTokens` is the ceiling of 1.33 times the number
of pieces of the whitespace split — one more than the number of whitespace
runs — and on a nonempty text with no leading or trailing whitespace that
piece count equals the word count, recovering the claim there. -/
theorem c8_amended (t : List Char) :
    estimateTokens t = (133 * (wsRunCount t + 1) + 99) / 100 ∧
    (t ≠ [] → trimL t = t → trimR t = t →
      (jsSplitWS t).length = (wordsOf t).length) := by
  constructor
  · simp [estimateTokens, jsSplitWS, wsRunCount, jsSplitAux_length]
  · intro hne hL hR
    have hpieces : ∀ p ∈ jsSplitWS t, p ≠ [] := by
      apply jsSplitAux_pieces_ne_nil t false []
      · exact last_not_ws_of_trimR t hR
      · intro h; exact absurd h hne
      · intro _ _
        cases t with
        | nil => exact absurd rfl hne
        | cons c rest =>
          exact ⟨c, rest, rfl, head_not_ws_of_trimL _ hL c rfl⟩
    unfold wordsOf
    rw [List.filter_eq_self.mpr (fun p hp => by simpa using hpieces p hp)]

/-- C8 witness: the amended theorem applied at `hello world` (2 words,
estimate `ceil(2 * 1.33) = 3`), with the trimming hypotheses discharged
concretely. -/
theorem c8_amended_witness :
    estimateTokens (strOf "hello world") =
      (133 * (wsRunCount (strOf "hello world") + 1) + 99) / 100 ∧
    (jsSplitWS (strOf "hello world")).length =
      (wordsOf (strOf "hello world")).length :=
  ⟨(c8_amended (strOf "hello world")).1,
    (c8_amended (strOf "hello world")).2 (by decide) (by decide) (by decide)⟩
theorem groupSum_append (a b : List (Nat × Nat)) (t : Nat) :
    groupSum (a ++ b) t = groupSum a t + groupSum b t := by
  simp [groupSum, List.filter_append]

theorem groupSum_single (m e t : Nat) :
    groupSum [(m, e)] t = if m = t then e else 0 := by
  by_cases h : m = t <;> simp [groupSum, h]

theorem groupSum_eq_zero {l : List (Nat × Nat)} {t : Nat}
    (h : ∀ p ∈ l, p.1 ≠ t) : groupSum l t = 0 := by
  have : l.filter (fun p => decide (p.1 = t)) = [] := by
    rw [List.filter_eq_nil_iff]
    intro p hp
    simp [h p hp]
  simp [groupSum, this]

theorem wsRunsAux_rep (n : Nat) :
    ∀ b, wsRunsAux ((List.replicate n [Char.ofNat 97, spc]).flatten) b = n := by
  induction n with
  | zero => intro b; simp [wsRunsAux]
  | succ k ih =>
    intro b
    rw [List.replicate_succ]
    have ha : isWS (Char.ofNat 97) = false := by decide
    have hs : isWS spc = true := by decide
    simp only [List.flatten_cons, List.cons_append, List.nil_append,
      wsRunsAux, ha, hs, if_false, if_true, Bool.false_eq_true]
    show 1 + wsRunsAux (List.replicate k [Char.ofNat 97, spc]).flatten true = k + 1
    rw [ih true]
    omega

theorem c1_est : estimateTokens c1BigChunk = 30001 := by
  have h1 : (jsSplitWS c1BigChunk).length = 22557 := by
    rw [jsSplitWS, jsSplitAux_length]
    show wsRunsAux _ false + 1 = 22557
    rw [c1BigChunk, wsRunsAux_rep 22556 false]
  rw [estimateTokens, h1]

theorem rl_single_over (c : List Char) (hc : estimateTokens c = 30001) :
    (runRL [c] []).issued = [(65000, 30001)] := by
  show (rlRunAux [c] [] (RLState.mk 0 0 0 [])).issued = _
  simp only [rlRunAux, rlStep, hc, List.tail_nil, List.headD_nil]
  norm_num

/-- C1 counterexample: a single chunk of 22557 one-letter words estimates
to 30001 tokens; the controller waits, resets, and then issues it anyway
at time 65000, so the window starting there carries 30001 > 30000
estimated tokens.  The rolling-window budget claim fails as stated. -/
theorem c1_counterexample : ¬ claimC1Stated := by
  intro h
  have h2 := h [c1BigChunk] [] 65000
  rw [rl_single_over c1BigChunk c1_est] at h2
  simp [winSum] at h2

theorem rlStep_inv (c : List Char) (hc : estimateTokens c ≤ 30000)
    (s : RLState) (hs : RLInv s) : RLInv (rlStep c 0 s) := by
  obtain ⟨h1, h2, h3, h4, h5, h6⟩ := hs
  by_cases hb : 30000 < s.tokensUsed + estimateTokens c
  · -- reset branch: wait to now + 65000, reset, issue there
    have helapsed : s.now - s.startTime = 0 := by omega
    have hstep : rlStep c 0 s =
        RLState.mk (estimateTokens c) (s.now + 65000) (s.now + 65000)
          (s.issued ++ [(s.now + 65000, estimateTokens c)]) := by
      simp only [rlStep, hb, if_true, h1, helapsed]
      norm_num
    rw [hstep]
    refine ⟨rfl, ?_, hc, ?_, ?_, ?_⟩
    · exact Dvd.dvd.add h2 ⟨1, rfl⟩
    · intro p hp
      dsimp only at hp ⊢
      rcases List.mem_append.mp hp with h | h
      · exact ⟨(h4 p h).1, by have := (h4 p h).2; omega⟩
      · simp at h
        subst h
        exact ⟨Dvd.dvd.add h2 ⟨1, rfl⟩, le_refl _⟩
    · intro t ht
      dsimp only at ht ⊢
      rw [groupSum_append, groupSum_single]
      have hne2 : ¬ (s.now + 65000 = t) := fun hh => ht hh.symm
      rw [if_neg hne2]
      by_cases htn : t = s.now
      · rw [htn, h6]; omega
      · have := h5 t htn; omega
    · dsimp only
      rw [groupSum_append, groupSum_single, if_pos rfl]
      have hz : groupSum s.issued (s.now + 65000) = 0 := by
        apply groupSum_eq_zero
        intro p hp
        have := (h4 p hp).2
        omega
      omega
  · -- accumulate branch: issue at now
    have hstep : rlStep c 0 s =
        RLState.mk (s.tokensUsed + estimateTokens c) s.startTime s.now
          (s.issued ++ [(s.now, estimateTokens c)]) := by
      simp only [rlStep, hb, if_false]
      norm_num
    rw [hstep]
    refine ⟨h1, h2, by dsimp only; omega, ?_, ?_, ?_⟩
    · intro p hp
      dsimp only at hp ⊢
      rcases List.mem_append.mp hp with h | h
      · exact h4 p h
      · simp at h
        subst h
        exact ⟨h2, le_refl _⟩
    · intro t ht
      dsimp only at ht ⊢
      rw [groupSum_append, groupSum_single]
      have hne2 : ¬ (s.now = t) := fun hh => ht hh.symm
      rw [if_neg hne2]
      have := h5 t ht
      omega
    · dsimp only
      rw [groupSum_append, groupSum_single, if_pos rfl, h6]

theorem rlRunAux_inv :
    ∀ (chunks : List (List Char)) (durs : List Nat) (s : RLState),
      (∀ c ∈ chunks, estimateTokens c ≤ 30000) →
      (∀ d ∈ durs, d = 0) → RLInv s → RLInv (rlRunAux chunks durs s) := by
  intro chunks
  induction chunks with
  | nil => intro durs s _ _ hs; exact hs
  | cons c cs ih =>
    intro durs s hc hd hs
    rw [rlRunAux]
    have hd0 : durs.headD 0 = 0 := by
      cases durs with
      | nil => rfl
      | cons d ds => exact hd d (by simp)
    rw [hd0]
    apply ih durs.tail _ (fun x hx => hc x (by simp [hx]))
      (fun d hdm => hd d (List.mem_of_mem_tail hdm))
    exact rlStep_inv c (hc c (by simp)) s hs

theorem filter_sublist_filter_of_mem {α : Type} (l : List α) (p q : α → Bool)
    (h : ∀ a ∈ l, p a = true → q a = true) :
    List.Sublist (l.filter p) (l.filter q) := by
  induction l with
  | nil => simp
  | cons x xs ih =>
    have ih2 := ih (fun a ha hp => h a (List.mem_cons_of_mem x ha) hp)
    by_cases hp : p x
    · rw [List.filter_cons_of_pos hp, List.filter_cons_of_pos (h x (by simp) hp)]
      exact List.Sublist.cons₂ x ih2
    · rw [List.filter_cons_of_neg hp]
      by_cases hq : q x
      · rw [List.filter_cons_of_pos hq]
        exact List.Sublist.cons x ih2
      · rw [List.filter_cons_of_neg hq]
        exact ih2

theorem winSum_le_of_inv (issued : List (Nat × Nat))
    (hdvd : ∀ p ∈ issued, 65000 ∣ p.1)
    (hgrp : ∀ t, groupSum issued t ≤ 30000) (T : Nat) :
    winSum issued T ≤ 30000 := by
  by_cases hnil :
      issued.filter (fun p => decide (T ≤ p.1) && decide (p.1 < T + 65000)) = []
  · simp [winSum, hnil]
  · obtain ⟨p0, hp0⟩ := List.exists_mem_of_ne_nil _ hnil
    have hp0m := List.mem_of_mem_filter hp0
    have hp0w := List.of_mem_filter hp0
    simp at hp0w
    have hsub : List.Sublist
        (issued.filter (fun p => decide (T ≤ p.1) && decide (p.1 < T + 65000)))
        (issued.filter (fun p => decide (p.1 = p0.1))) := by
      apply filter_sublist_filter_of_mem
      intro a ha hfa
      simp at hfa ⊢
      obtain ⟨k, hk⟩ := hdvd a ha
      obtain ⟨m, hm⟩ := hdvd p0 hp0m
      omega
    calc winSum issued T
        ≤ groupSum issued p0.1 := by
          apply List.Sublist.sum_le_sum (List.Sublist.map Prod.snd hsub)
          intro a _
          exact Nat.zero_le a
      _ ≤ 30000 := hgrp p0.1

/-- C1 amended: provided every chunk's estimate fits the per-minute budget
and the generation calls themselves take no time (all durations zero, the
only suspensions being the throttle waits), the estimated tokens of the
requests issued inside any rolling half-open 65-second window total at
most 30000. -/
theorem c1_amended (chunks : List (List Char)) (durs : List Nat) (T : Nat)
    (hc : ∀ c ∈ chunks, estimateTokens c ≤ 30000)
    (hd : ∀ d ∈ durs, d = 0) :
    winSum (runRL chunks durs).issued T ≤ 30000 := by
  have hinit : RLInv (RLState.mk 0 0 0 []) := by
    refine ⟨rfl, ⟨0, rfl⟩, Nat.zero_le _, by simp, ?_, by simp [groupSum]⟩
    intro t _
    simp [groupSum]
  have hinv : RLInv (runRL chunks durs) := rlRunAux_inv chunks durs _ hc hd hinit
  obtain ⟨h1, h2, h3, h4, h5, h6⟩ := hinv
  apply winSum_le_of_inv
  · exact fun p hp => (h4 p hp).1
  · intro t
    by_cases ht : t = (runRL chunks durs).now
    · rw [ht, h6]; exact h3
    · exact h5 t ht

/-- C1 witness: the amended theorem applied to a concrete one-chunk run
with hypotheses discharged concretely. -/
theorem c1_amended_witness :
    winSum (runRL [strOf "one two three"] []).issued 0 ≤ 30000 :=
  c1_amended [strOf "one two three"] [] 0
    (by intro c hcm; simp at hcm; subst hcm; decide) (by simp)

theorem trimL_append (x y : List Char) :
    trimL (x ++ y) = if trimL x = [] then trimL y else trimL x ++ y := by
  induction x with
  | nil => simp [trimL]
  | cons c xs ih =>
    by_cases h : isWS c
    · simpa [trimL, List.dropWhile_cons, h] using ih
    · simp [trimL, List.dropWhile_cons, h]

theorem trimR_append_spc (y : List Char) : trimR (y ++ [spc]) = trimR y := by
  have h : isWS spc = true := by decide
  simp [trimR, List.dropWhile_cons, h]

theorem trimStr_append_spc (x : List Char) : trimStr (x ++ [spc]) = trimStr x := by
  unfold trimStr
  rw [trimL_append]
  by_cases h : trimL x = []
  · rw [if_pos h, h]
    have : trimL [spc] = [] := by decide
    rw [this]
  · rw [if_neg h, trimR_append_spc]

theorem joinSp_cons_ne (x : List Char) (xs : List (List Char)) (h : xs ≠ []) :
    joinSp (x :: xs) = x ++ spc :: joinSp xs := by
  cases xs with
  | nil => exact absurd rfl h
  | cons y ys => rfl

theorem joinSp_append (a b : List (List Char)) (ha : a ≠ []) (hb : b ≠ []) :
    joinSp (a ++ b) = joinSp a ++ spc :: joinSp b := by
  induction a with
  | nil => exact absurd rfl ha
  | cons x xs ih =>
    cases hx : xs with
    | nil =>
      subst hx
      simp only [List.singleton_append, List.cons_append, List.nil_append]
      rw [joinSp_cons_ne x b hb]
      rfl
    | cons y ys =>
      subst hx
      have hxs : (y :: ys : List (List Char)) ≠ [] := by simp
      have hab : (y :: ys ++ b : List (List Char)) ≠ [] := by simp
      rw [List.cons_append, joinSp_cons_ne x _ hab, joinSp_cons_ne x _ hxs,
        ih hxs]
      simp

theorem joinSp_cons_len (x : List Char) (xs : List (List Char)) :
    (joinSp (x :: xs)).length =
      x.length + (if xs = [] then 0 else 1 + (joinSp xs).length) := by
  cases xs with
  | nil => simp [joinSp]
  | cons y ys => simp [joinSp_cons_ne x (y :: ys) (by simp)]; omega

theorem joinSp_len_mono {l₁ l₂ : List (List Char)} (h : List.Sublist l₁ l₂) :
    (joinSp l₁).length ≤ (joinSp l₂).length := by
  induction h with
  | slnil => exact le_refl _
  | @cons l₁ l₂ a hsub ih =>
    rw [joinSp_cons_len]
    by_cases h2 : l₂ = []
    · subst h2
      have hn : l₁ = [] := List.sublist_nil.mp hsub
      subst hn
      simp
      exact Nat.zero_le _
    · rw [if_neg h2]
      omega
  | @cons₂ l₁ l₂ a hsub ih =>
    rw [joinSp_cons_len, joinSp_cons_len]
    by_cases h1 : l₁ = []
    · subst h1
      by_cases h2 : l₂ = []
      · simp [h2]
      · rw [if_pos rfl, if_neg h2]
        omega
    · have h2 : l₂ ≠ [] := by
        intro hh
        subst hh
        exact h1 (List.sublist_nil.mp hsub)
      rw [if_neg h1, if_neg h2]
      omega

theorem joinSp_mem_len {x : List Char} {l : List (List Char)} (h : x ∈ l) :
    x.length ≤ (joinSp l).length := by
  have : List.Sublist [x] l := List.singleton_sublist.mpr h
  simpa using joinSp_len_mono this

theorem fbStepG_accum (cap : Nat) (mkName : Nat → List Char) (st : FBState)
    (sent : List Char) (hlen : st.sentenceGroup.length + 1 ≤ 3)
    (hcap : st.currentChunk.length + sent.length ≤ cap) :
    fbStepG cap mkName st sent =
      ⟨st.chunks, st.currentChunk, st.sectionNumber,
        st.sentenceGroup ++ [sent]⟩ := by
  have h1 : ¬ (4 ≤ (st.sentenceGroup ++ [sent]).length ∨
      cap < st.currentChunk.length + sent.length) := by
    simp
    constructor
    · omega
    · omega
  simp only [fbStepG]
  rw [if_neg h1]

theorem fbStepG_groupEnd (cap : Nat) (mkName : Nat → List Char) (st : FBState)
    (sent : List Char)
    (hlen : 4 ≤ (st.sentenceGroup ++ [sent]).length ∨
      cap < st.currentChunk.length + sent.length)
    (hcap2 : st.currentChunk.length +
      (joinSp (st.sentenceGroup ++ [sent])).length ≤ cap) :
    fbStepG cap mkName st sent =
      ⟨st.chunks,
        st.currentChunk ++ (joinSp (st.sentenceGroup ++ [sent]) ++ [spc]),
        st.sectionNumber, []⟩ := by
  simp only [fbStepG]
  rw [if_pos hlen, if_neg (by omega)]

theorem c7_loop (cap : Nat) (mkName : Nat → List Char) (S : List (List Char))
    (hfit : (joinSp S).length + 1 ≤ cap) :
    ∀ (rem fl pend : List (List Char)),
      S = fl ++ (pend ++ rem) → 4 ∣ fl.length → pend.length ≤ 3 →
      rem.foldl (fbStepG cap mkName)
        ⟨[], if fl = [] then [] else joinSp fl ++ [spc], 1, pend⟩ =
      ⟨[],
        if fl ++ (pend ++ rem).take (4 * ((pend ++ rem).length / 4)) = []
          then []
          else joinSp
            (fl ++ (pend ++ rem).take (4 * ((pend ++ rem).length / 4))) ++
            [spc],
        1, (pend ++ rem).drop (4 * ((pend ++ rem).length / 4))⟩ := by
  intro rem
  induction rem with
  | nil =>
    intro fl pend hS hfl hp
    have hdiv : pend.length / 4 = 0 := Nat.div_eq_of_lt (by omega)
    simp [hdiv]
  | cons r rest ih =>
    intro fl pend hS hfl hp
    have hrS : r ∈ S := by rw [hS]; simp
    have hrlen : r.length ≤ (joinSp S).length := joinSp_mem_len hrS
    have hcurlen : (if fl = [] then [] else joinSp fl ++ [spc]).length +
        r.length ≤ cap := by
      by_cases hfl0 : fl = []
      · rw [if_pos hfl0]
        simp
        omega
      · rw [if_neg hfl0]
        have hsub : List.Sublist (fl ++ [r]) S := by
          rw [hS]
          apply (List.append_sublist_append_left fl).mpr
          exact List.Sublist.trans (List.sublist_append_left [r] rest)
            (List.sublist_append_right pend (r :: rest))
        have hj := joinSp_len_mono hsub
        rw [joinSp_append fl [r] hfl0 (by simp)] at hj
        simp [joinSp] at hj ⊢
        omega
    rw [List.foldl_cons]
    by_cases hp3 : pend.length ≤ 2
    · -- the group is still short: just accumulate the sentence
      rw [fbStepG_accum cap mkName _ r (by simpa using by omega) hcurlen]
      have hres := ih fl (pend ++ [r])
        (by rw [hS]; simp) hfl (by simp; omega)
      rw [hres]
      simp
    · -- the group reaches four sentences and is joined into the chunk
      have hp4 : pend.length = 3 := by omega
      have hgne : pend ++ [r] ≠ [] := by simp
      have hgsub : List.Sublist (fl ++ (pend ++ [r])) S := by
        rw [hS]
        apply (List.append_sublist_append_left fl).mpr
        have : pend ++ r :: rest = (pend ++ [r]) ++ rest := by simp
        rw [this]
        exact List.sublist_append_left _ _
      have hcap2 : (if fl = [] then [] else joinSp fl ++ [spc]).length +
          (joinSp (pend ++ [r])).length ≤ cap := by
        by_cases hfl0 : fl = []
        · rw [if_pos hfl0]
          have := joinSp_len_mono hgsub
          rw [hfl0] at this
          simp at this ⊢
          omega
        · rw [if_neg hfl0]
          have hj := joinSp_len_mono hgsub
          rw [joinSp_append fl (pend ++ [r]) hfl0 hgne] at hj
          simp at hj ⊢
          omega
      rw [fbStepG_groupEnd cap mkName _ r (by simp; omega) hcap2]
      have hcur2 : (if fl = [] then [] else joinSp fl ++ [spc]) ++
          (joinSp (pend ++ [r]) ++ [spc]) =
          (if fl ++ (pend ++ [r]) = [] then []
            else joinSp (fl ++ (pend ++ [r])) ++ [spc]) := by
        by_cases hfl0 : fl = []
        · subst hfl0
          simp
        · rw [if_neg hfl0, if_neg (by simp [hfl0])]
          rw [joinSp_append fl (pend ++ [r]) hfl0 hgne]
          simp
      rw [hcur2]
      have hres := ih (fl ++ (pend ++ [r])) []
        (by rw [hS]; simp) (by simp [hp4]; omega) (by simp)
      simp only [List.nil_append] at hres
      rw [hres]
      have hLen : (pend ++ r :: rest).length = 4 + rest.length := by
        simp [hp4]
        omega
      have htake : (pend ++ r :: rest).take
          (4 * ((pend ++ r :: rest).length / 4)) =
          (pend ++ [r]) ++ rest.take (4 * (rest.length / 4)) := by
        rw [hLen]
        have h44 : 4 * ((4 + rest.length) / 4) = 4 + 4 * (rest.length / 4) := by
          omega
        rw [h44]
        have : pend ++ r :: rest = (pend ++ [r]) ++ rest := by simp
        rw [this]
        have hglen : (pend ++ [r]).length = 4 := by simp [hp4]
        rw [show 4 + 4 * (rest.length / 4) =
          (pend ++ [r]).length + 4 * (rest.length / 4) by rw [hglen]]
        exact List.take_append _
      have hdrop : (pend ++ r :: rest).drop
          (4 * ((pend ++ r :: rest).length / 4)) =
          rest.drop (4 * (rest.length / 4)) := by
        rw [hLen]
        have h44 : 4 * ((4 + rest.length) / 4) = 4 + 4 * (rest.length / 4) := by
          omega
        rw [h44]
        have : pend ++ r :: rest = (pend ++ [r]) ++ rest := by simp
        rw [this]
        have hglen : (pend ++ [r]).length = 4 := by simp [hp4]
        rw [show 4 + 4 * (rest.length / 4) =
          (pend ++ [r]).length + 4 * (rest.length / 4) by rw [hglen]]
        exact List.drop_append _
      rw [htake, hdrop]
      simp

/-- C7 amended: on a text whose space-rejoined sentence list fits under
the cap, the fallback (a) returns one single chunk when the sentence
count is a positive multiple of four — its content the trimmed
space-join of the regrouped sentences, with a single space inserted
between consecutive sentences, so not in general the verbatim input —
and (b) returns no chunk at all when there are at most three sentences,
because the pending sentence group is never flushed.  In particular the
idempotence stated by the original claim fails on both counts. -/
theorem c7_amended (t base : List Char) (cap : Nat)
    (hfit : (joinSp (sentencesOf t)).length + 1 ≤ cap) :
    ((sentencesOf t).length % 4 = 0 → 0 < (sentencesOf t).length →
      fallbackChunking t base cap =
        [⟨base ++ Char.ofNat 46 :: natChars 1,
          trimStr (joinSp (sentencesOf t))⟩]) ∧
    ((sentencesOf t).length ≤ 3 → fallbackChunking t base cap = []) := by
  have hloop := c7_loop cap (fun k => base ++ Char.ofNat 46 :: natChars k)
    (sentencesOf t) hfit (sentencesOf t) [] [] (by simp) ⟨0, rfl⟩ (by simp)
  rw [if_pos rfl] at hloop
  simp only [List.nil_append] at hloop
  constructor
  · intro h4 hpos
    unfold fallbackChunking sentenceLoop
    have hmul : 4 * ((sentencesOf t).length / 4) = (sentencesOf t).length := by
      omega
    rw [hmul, List.take_length, List.drop_length] at hloop
    have hSne : sentencesOf t ≠ [] := by
      intro h
      rw [h] at hpos
      simp at hpos
    rw [if_neg hSne] at hloop
    rw [hloop]
    unfold sentenceLoopFinish
    rw [if_pos (by simp)]
    simp [trimStr_append_spc]
  · intro h3
    unfold fallbackChunking sentenceLoop
    have hdiv : (sentencesOf t).length / 4 = 0 := Nat.div_eq_of_lt (by omega)
    rw [hdiv] at hloop
    simp only [Nat.mul_zero, List.take_zero, List.drop_zero] at hloop
    rw [if_pos trivial] at hloop
    rw [hloop]
    unfold sentenceLoopFinish
    simp

/-- C7 witness: the amended theorem's single-chunk case applied to the
four-sentence text `a. b. c. d.` with cap 100, and its no-chunk case
applied to the one-sentence text `bb.` (the very sub-chunk of the
counterexample), hypotheses discharged concretely. -/
theorem c7_amended_witness :
    (fallbackChunking (strOf "a. b. c. d.") (strOf "X") 100 =
      [⟨strOf "X" ++ Char.ofNat 46 :: natChars 1,
        trimStr (joinSp (sentencesOf (strOf "a. b. c. d.")))⟩]) ∧
    fallbackChunking (strOf "bb.") (strOf "X") 100 = [] :=
  ⟨(c7_amended (strOf "a. b. c. d.") (strOf "X") 100 (by decide)).1
      (by decide) (by decide),
    (c7_amended (strOf "bb.") (strOf "X") 100 (by decide)).2 (by decide)⟩

theorem trimStr_length_le (x : List Char) : (trimStr x).length ≤ x.length := by
  unfold trimStr trimR trimL
  calc ((x.dropWhile isWS).reverse.dropWhile isWS).reverse.length
      = ((x.dropWhile isWS).reverse.dropWhile isWS).length := by
        rw [List.length_reverse]
    _ ≤ (x.dropWhile isWS).reverse.length := length_dropWhile_le' _ _
    _ = (x.dropWhile isWS).length := by rw [List.length_reverse]
    _ ≤ x.length := length_dropWhile_le' _ _

theorem emit_ok (cap : Nat) (S : List (List Char)) (cur : List Char)
    (h : CurOk cap S cur) :
    (trimStr cur).length ≤ cap ∨ GroupOk S (trimStr cur) := by
  rcases h with h | ⟨y, rfl, hy | ⟨gs, hne, hlen, hsub, rfl⟩⟩
  · left
    rw [h]
    simp [trimStr, trimL, trimR]
  · left
    rw [trimStr_append_spc]
    exact le_trans (trimStr_length_le y) hy
  · right
    rw [trimStr_append_spc]
    exact ⟨gs, hne, hlen, hsub, rfl⟩

theorem fbStep_inv (cap : Nat) (mkName : Nat → List Char)
    (S done : List (List Char)) (st : FBState) (sent : List Char)
    (hchunks : ∀ c ∈ st.chunks,
      c.chunkContent.length ≤ cap ∨ GroupOk S c.chunkContent)
    (hcur : CurOk cap S st.currentChunk)
    (hgrp : st.sentenceGroup.Sublist done)
    (hglen : st.sentenceGroup.length ≤ 3)
    (hdone : List.Sublist (done ++ [sent]) S) :
    (∀ c ∈ (fbStepG cap mkName st sent).chunks,
      c.chunkContent.length ≤ cap ∨ GroupOk S c.chunkContent) ∧
    CurOk cap S (fbStepG cap mkName st sent).currentChunk ∧
    (fbStepG cap mkName st sent).sentenceGroup.Sublist (done ++ [sent]) ∧
    (fbStepG cap mkName st sent).sentenceGroup.length ≤ 3 := by
  have hgS : List.Sublist (st.sentenceGroup ++ [sent]) S :=
    List.Sublist.trans (List.Sublist.append hgrp (List.Sublist.refl [sent]))
      hdone
  by_cases h1 : 4 ≤ (st.sentenceGroup ++ [sent]).length ∨
      cap < st.currentChunk.length + sent.length
  · by_cases h2 : cap < st.currentChunk.length +
        (joinSp (st.sentenceGroup ++ [sent])).length
    · -- push the running chunk, restart from the joined group
      have hstep : fbStepG cap mkName st sent =
          ⟨st.chunks ++ [⟨mkName st.sectionNumber, trimStr st.currentChunk⟩],
            joinSp (st.sentenceGroup ++ [sent]) ++ [spc],
            st.sectionNumber + 1, []⟩ := by
        simp only [fbStepG]
        rw [if_pos h1, if_pos h2]
      rw [hstep]
      refine ⟨?_, ?_, by simp, by simp⟩
      · intro c hc
        dsimp only at hc
        rcases List.mem_append.mp hc with h | h
        · exact hchunks c h
        · simp at h
          subst h
          exact emit_ok cap S st.currentChunk hcur
      · right
        exact ⟨joinSp (st.sentenceGroup ++ [sent]), rfl,
          Or.inr ⟨st.sentenceGroup ++ [sent], by simp,
            by simp only [List.length_append, List.length_cons,
              List.length_nil]; omega, hgS, rfl⟩⟩
    · -- join the group into the running chunk
      have hstep : fbStepG cap mkName st sent =
          ⟨st.chunks,
            st.currentChunk ++ (joinSp (st.sentenceGroup ++ [sent]) ++ [spc]),
            st.sectionNumber, []⟩ := by
        simp only [fbStepG]
        rw [if_pos h1, if_neg h2]
      rw [hstep]
      refine ⟨fun c hc => hchunks c hc, ?_, by simp, by simp⟩
      right
      refine ⟨st.currentChunk ++ joinSp (st.sentenceGroup ++ [sent]),
        by simp, Or.inl (by simp; omega)⟩
  · -- keep accumulating the sentence group
    have hstep : fbStepG cap mkName st sent =
        ⟨st.chunks, st.currentChunk, st.sectionNumber,
          st.sentenceGroup ++ [sent]⟩ := by
      simp only [fbStepG]
      rw [if_neg h1]
    rw [hstep]
    simp only [not_or, not_le, not_lt, List.length_append, List.length_cons,
      List.length_nil] at h1
    refine ⟨fun c hc => hchunks c hc, hcur,
      List.Sublist.append hgrp (List.Sublist.refl [sent]), by simp; omega⟩

theorem fbLoop_inv (cap : Nat) (mkName : Nat → List Char)
    (S : List (List Char)) :
    ∀ (rem done : List (List Char)) (st : FBState),
      List.Sublist (done ++ rem) S →
      (∀ c ∈ st.chunks,
        c.chunkContent.length ≤ cap ∨ GroupOk S c.chunkContent) →
      CurOk cap S st.currentChunk →
      st.sentenceGroup.Sublist done →
      st.sentenceGroup.length ≤ 3 →
      (∀ c ∈ (rem.foldl (fbStepG cap mkName) st).chunks,
        c.chunkContent.length ≤ cap ∨ GroupOk S c.chunkContent) ∧
      CurOk cap S (rem.foldl (fbStepG cap mkName) st).currentChunk := by
  intro rem
  induction rem with
  | nil =>
    intro done st _ hchunks hcur _ _
    exact ⟨hchunks, hcur⟩
  | cons sent rest ih =>
    intro done st hsub hchunks hcur hgrp hglen
    rw [List.foldl_cons]
    have hdone : List.Sublist (done ++ [sent]) S := by
      apply List.Sublist.trans _ hsub
      apply (List.append_sublist_append_left done).mpr
      exact List.Sublist.trans (List.sublist_append_left [sent] rest)
        (List.Sublist.refl _)
    obtain ⟨h1, h2, h3, h4⟩ :=
      fbStep_inv cap mkName S done st sent hchunks hcur hgrp hglen hdone
    apply ih (done ++ [sent]) _ _ h1 h2 h3 h4
    have : done ++ [sent] ++ rest = done ++ sent :: rest := by simp
    rw [this]
    exact hsub

theorem sentenceLoop_spec (cap : Nat) (mkName : Nat → List Char)
    (t : List Char) :
    ∀ c ∈ sentenceLoop cap mkName t,
      c.chunkContent.length ≤ cap ∨ GroupOk (sentencesOf t) c.chunkContent := by
  intro c hc
  unfold sentenceLoop at hc
  obtain ⟨hchunks, hcur⟩ :=
    fbLoop_inv cap mkName (sentencesOf t) (sentencesOf t) [] ⟨[], [], 1, []⟩
      (by simp) (by simp) (Or.inl rfl) (by simp) (by simp)
  rcases List.mem_append.mp hc with h | h
  · exact hchunks c h
  · by_cases hpos :
        0 < ((sentencesOf t).foldl (fbStepG cap mkName)
          ⟨[], [], 1, []⟩).currentChunk.length
    · rw [if_pos hpos] at h
      simp at h
      rw [h]
      exact emit_ok cap (sentencesOf t) _ hcur
    · rw [if_neg hpos] at h
      simp at h

/-- C4 amended: every chunk produced by either segmentation variant fits
the variant's cap (40000 flat, 100000 structural) EXCEPT chunks whose
content is a single sentence group — the trimmed space-join of at most
four consecutive sentences of the split source — whose joined length
exceeds the cap; a single over-cap sentence is the one-sentence case of
such a group. -/
theorem c4_amended (t : List Char) :
    (∀ c ∈ smartChunkTextFlat t,
      c.chunkContent.length ≤ 40000 ∨
        GroupOk (sentencesOf t) c.chunkContent) ∧
    (∀ c ∈ smartChunkTextStruct t,
      c.chunkContent.length ≤ 100000 ∨
        ∃ pc ∈ structuralBase t, 100000 < pc.chunkContent.length ∧
          GroupOk (sentencesOf pc.chunkContent) c.chunkContent) := by
  constructor
  · intro c hc
    exact sentenceLoop_spec 40000 _ t c hc
  · intro c hc
    unfold smartChunkTextStruct at hc
    obtain ⟨l, hl, hcl⟩ := List.mem_flatten.mp hc
    obtain ⟨pc, hpc, hfpc⟩ := List.mem_map.mp hl
    by_cases hbig : 100000 < pc.chunkContent.length
    · rw [if_pos hbig] at hfpc
      subst hfpc
      rcases sentenceLoop_spec 100000 _ pc.chunkContent c hcl with h | h
      · exact Or.inl h
      · exact Or.inr ⟨pc, hpc, hbig, h⟩
    · rw [if_neg hbig] at hfpc
      subst hfpc
      simp at hcl
      subst hcl
      exact Or.inl (by omega)

/-- C4 witness: the amended theorem applied to a concrete four-sentence
text and the chunk the flat variant actually emits for it. -/
theorem c4_amended_witness :
    (⟨strOf "Section 1",
        strOf "Hi there.  How are you.  Fine thanks.  Good."⟩ :
        Chunk).chunkContent.length ≤ 40000 ∨
      GroupOk (sentencesOf
          (strOf "Hi there. How are you. Fine thanks. Good."))
        (⟨strOf "Section 1",
          strOf "Hi there.  How are you.  Fine thanks.  Good."⟩ :
            Chunk).chunkContent :=
  (c4_amended (strOf "Hi there. How are you. Fine thanks. Good.")).1
    ⟨strOf "Section 1", strOf "Hi there.  How are you.  Fine thanks.  Good."⟩
    (by decide)

theorem splitSentAux_chunk (c : Char) (hc : isTerm c = true) :
    ∀ (xs acc rest : List Char), (∀ x ∈ xs, isTerm x = false) →
      splitSentAux (xs ++ c :: rest) acc =
        (acc ++ (xs ++ [c])) :: splitSentAux rest [] := by
  intro xs
  induction xs with
  | nil =>
    intro acc rest _
    simp [splitSentAux, hc]
  | cons x xs2 ih =>
    intro acc rest hno
    have hx : isTerm x = false := hno x (by simp)
    simp only [List.cons_append, splitSentAux, hx, Bool.false_eq_true,
      if_false]
    show splitSentAux (xs2 ++ c :: rest) (acc ++ [x]) =
      (acc ++ x :: (xs2 ++ [c])) :: splitSentAux rest []
    rw [ih (acc ++ [x]) rest (fun y hy => hno y (by simp [hy]))]
    simp

theorem noTerm_rep :
    ∀ x ∈ List.replicate 10000 (Char.ofNat 97), isTerm x = false := by
  intro x hx
  rw [List.eq_of_mem_replicate hx]
  decide

theorem sentences_bigText4 :
    sentencesOf bigText4 =
      [bigSentence, bigSentence, bigSentence, bigSentence] := by
  have hterm : isTerm (Char.ofNat 46) = true := by decide
  have hsplit : ∀ rest : List Char,
      splitSentAux (bigSentence ++ rest) [] =
        bigSentence :: splitSentAux rest [] := by
    intro rest
    have hb : bigSentence ++ rest =
        List.replicate 10000 (Char.ofNat 97) ++ Char.ofNat 46 :: rest := by
      unfold bigSentence
      rw [List.append_assoc]
      rfl
    rw [hb, splitSentAux_chunk (Char.ofNat 46) hterm _ _ _ noTerm_rep]
    rw [List.nil_append]
    rfl
  have h0 : splitSentAux ([] : List Char) [] = [] := rfl
  unfold sentencesOf
  rw [show bigText4 =
    bigSentence ++ (bigSentence ++ (bigSentence ++ (bigSentence ++ []))) by
      unfold bigText4
      simp only [List.append_assoc, List.append_nil]]
  rw [hsplit, hsplit, hsplit, hsplit, h0]

theorem bigSentence_len : bigSentence.length = 10001 := by
  unfold bigSentence
  simp only [List.length_append, List.length_replicate, List.length_cons,
    List.length_nil]

theorem gc4_len :
    (joinSp [bigSentence, bigSentence, bigSentence, bigSentence]).length =
      40007 := by
  simp [joinSp_cons_len, bigSentence_len]

theorem fbStepG_push (cap : Nat) (mkName : Nat → List Char) (st : FBState)
    (sent : List Char)
    (hlen : 4 ≤ (st.sentenceGroup ++ [sent]).length ∨
      cap < st.currentChunk.length + sent.length)
    (hcap2 : cap < st.currentChunk.length +
      (joinSp (st.sentenceGroup ++ [sent])).length) :
    fbStepG cap mkName st sent =
      ⟨st.chunks ++ [⟨mkName st.sectionNumber, trimStr st.currentChunk⟩],
        joinSp (st.sentenceGroup ++ [sent]) ++ [spc],
        st.sectionNumber + 1, []⟩ := by
  simp only [fbStepG]
  rw [if_pos hlen, if_pos hcap2]

theorem habc : [bigSentence, bigSentence, bigSentence] ++ [bigSentence] =
    [bigSentence, bigSentence, bigSentence, bigSentence] := rfl

theorem flat_bigText4 :
    smartChunkTextFlat bigText4 =
      [⟨strOf "Section " ++ natChars 1, trimStr []⟩,
       ⟨strOf "Section " ++ natChars (1 + 1),
         trimStr (joinSp [bigSentence, bigSentence, bigSentence,
           bigSentence] ++ [spc])⟩] := by
  have hs1 : fbStepG 40000 (fun k => strOf "Section " ++ natChars k)
      ⟨[], [], 1, []⟩ bigSentence = ⟨[], [], 1, [bigSentence]⟩ := by
    rw [fbStepG_accum 40000 _ _ _ (by decide)
      (by rw [bigSentence_len]; decide)]
    rfl
  have hs2 : fbStepG 40000 (fun k => strOf "Section " ++ natChars k)
      ⟨[], [], 1, [bigSentence]⟩ bigSentence =
      ⟨[], [], 1, [bigSentence, bigSentence]⟩ := by
    rw [fbStepG_accum 40000 _ _ _ (by decide)
      (by rw [bigSentence_len]; decide)]
    rfl
  have hs3 : fbStepG 40000 (fun k => strOf "Section " ++ natChars k)
      ⟨[], [], 1, [bigSentence, bigSentence]⟩ bigSentence =
      ⟨[], [], 1, [bigSentence, bigSentence, bigSentence]⟩ := by
    rw [fbStepG_accum 40000 _ _ _ (by decide)
      (by rw [bigSentence_len]; decide)]
    rfl
  have hs4 : fbStepG 40000 (fun k => strOf "Section " ++ natChars k)
      ⟨[], [], 1, [bigSentence, bigSentence, bigSentence]⟩ bigSentence =
      ⟨[⟨strOf "Section " ++ natChars 1, trimStr []⟩],
        joinSp [bigSentence, bigSentence, bigSentence, bigSentence] ++ [spc],
        1 + 1, []⟩ := by
    rw [fbStepG_push 40000 _ _ _ (Or.inl (by rw [habc]; decide))
      (by rw [habc]; rw [gc4_len]; decide)]
    rfl
  have hfin : sentenceLoopFinish (fun k => strOf "Section " ++ natChars k)
      ⟨[⟨strOf "Section " ++ natChars 1, trimStr []⟩],
        joinSp [bigSentence, bigSentence, bigSentence, bigSentence] ++ [spc],
        1 + 1, []⟩ =
      [⟨strOf "Section " ++ natChars 1, trimStr []⟩,
       ⟨strOf "Section " ++ natChars (1 + 1),
         trimStr (joinSp [bigSentence, bigSentence, bigSentence,
           bigSentence] ++ [spc])⟩] := by
    unfold sentenceLoopFinish
    rw [if_pos (by
      rw [List.length_append, gc4_len]
      decide)]
    rfl
  unfold smartChunkTextFlat sentenceLoop
  rw [sentences_bigText4, List.foldl_cons, hs1, List.foldl_cons, hs2,
    List.foldl_cons, hs3, List.foldl_cons, hs4, List.foldl_nil, hfin]

theorem trimL_eq_self (x : List Char)
    (h : ∀ c, x.head? = some c → isWS c = false) : trimL x = x := by
  cases x with
  | nil => rfl
  | cons c xs =>
    have := h c rfl
    simp [trimL, List.dropWhile_cons, this]

theorem trimR_eq_self (x : List Char)
    (h : ∀ c, x.getLast? = some c → isWS c = false) : trimR x = x := by
  cases hx : x.reverse with
  | nil =>
    have : x = [] := by
      have := congrArg List.reverse hx
      simpa using this
    rw [this]
    rfl
  | cons c r =>
    have hc : x.getLast? = some c := by
      rw [← List.head?_reverse, hx]
      rfl
    have hws := h c hc
    unfold trimR
    rw [hx, List.dropWhile_cons, hws]
    simp only [Bool.false_eq_true, if_false]
    rw [← hx, List.reverse_reverse]

theorem trimStr_eq_self (x : List Char)
    (h1 : ∀ c, x.head? = some c → isWS c = false)
    (h2 : ∀ c, x.getLast? = some c → isWS c = false) : trimStr x = x := by
  unfold trimStr
  rw [trimL_eq_self x h1, trimR_eq_self x h2]

theorem joinSp_ne_nil_of_mem_ne {x : List Char} {l : List (List Char)}
    (hx : x ∈ l) (hne : x ≠ []) : joinSp l ≠ [] := by
  intro h
  have := joinSp_mem_len hx
  rw [h] at this
  simp at this
  exact hne this

theorem head?_joinSp_cons (x : List Char) (l : List (List Char))
    (hx : x ≠ []) : (joinSp (x :: l)).head? = x.head? := by
  cases l with
  | nil => rfl
  | cons y ys =>
    rw [joinSp_cons_ne x (y :: ys) (by simp)]
    cases x with
    | nil => exact absurd rfl hx
    | cons c cs => rfl

theorem getLast?_joinSp_concat (x : List Char) (hx : x ≠ []) :
    ∀ l : List (List Char), (joinSp (l ++ [x])).getLast? = x.getLast? := by
  intro l
  induction l with
  | nil => rfl
  | cons y ys ih =>
    rw [List.cons_append, joinSp_cons_ne y (ys ++ [x]) (by simp)]
    have hJ : joinSp (ys ++ [x]) ≠ [] :=
      joinSp_ne_nil_of_mem_ne (by simp) hx
    rw [List.getLast?_append_of_ne_nil y (by simp [hJ])]
    cases hj : joinSp (ys ++ [x]) with
    | nil => exact absurd hj hJ
    | cons d ds =>
      rw [List.getLast?_cons_cons, ← hj, ih]

theorem bigSentence_ne_nil : bigSentence ≠ [] := by
  intro h
  have := bigSentence_len
  rw [h] at this
  simp at this

theorem bigSentence_head : bigSentence.head? = some (Char.ofNat 97) := by
  unfold bigSentence
  rw [show (10000 : Nat) = 9999 + 1 from rfl, List.replicate_succ]
  rfl

theorem bigSentence_last : bigSentence.getLast? = some (Char.ofNat 46) := by
  unfold bigSentence
  rw [List.getLast?_append_of_ne_nil _ (by simp)]
  rfl

theorem trim_gc :
    trimStr (joinSp [bigSentence, bigSentence, bigSentence, bigSentence] ++
      [spc]) =
    joinSp [bigSentence, bigSentence, bigSentence, bigSentence] := by
  rw [trimStr_append_spc]
  apply trimStr_eq_self
  · intro c hc
    rw [head?_joinSp_cons bigSentence _ bigSentence_ne_nil,
      bigSentence_head] at hc
    injection hc with hc
    rw [← hc]
    decide
  · intro c hc
    rw [show ([bigSentence, bigSentence, bigSentence, bigSentence] :
        List (List Char)) =
      [bigSentence, bigSentence, bigSentence] ++ [bigSentence] from rfl,
      getLast?_joinSp_concat bigSentence bigSentence_ne_nil,
      bigSentence_last] at hc
    injection hc with hc
    rw [← hc]
    decide

/-- C4 counterexample: four consecutive 10001-character sentences total
40004 characters; the flat variant joins them into one 40007-character
chunk (40000 < 40007) although every sentence of the text has length
10001 ≤ 40000 — the over-cap chunk is a sentence GROUP, not a single
over-cap sentence, refuting the claim as stated. -/
theorem c4_counterexample : ¬ claimC4Stated := by
  intro h
  have hmem : (⟨strOf "Section " ++ natChars (1 + 1),
      trimStr (joinSp [bigSentence, bigSentence, bigSentence,
        bigSentence] ++ [spc])⟩ : Chunk) ∈
      smartChunkTextFlat bigText4 := by
    rw [flat_bigText4]
    exact List.mem_cons_of_mem _ (List.mem_cons_self _ _)
  have h2 := h.1 bigText4 _ _ hmem
  rcases h2 with h2 | ⟨s, hs, hlen, hceq⟩
  · rw [trim_gc, gc4_len] at h2
    omega
  · rw [sentences_bigText4] at hs
    simp only [List.mem_cons, List.not_mem_nil, or_false] at hs
    have hsl : s.length = 10001 := by
      rcases hs with rfl | rfl | rfl | rfl <;> exact bigSentence_len
    omega
